import Mathlib

/-!
# Verification of the puter-ai-cli agent core

Shallow embedding of the agent loop, tool registry/executor, permission
gate and the filesystem tools of the repository (src/agent.js and
src/tools.js), with theorems settling the frozen claims about them.

Modelling conventions:
* JavaScript strings are Lean `String`s; `String.prototype.includes`,
  `replace` (string pattern, hence first occurrence), `toLowerCase`,
  `trim`, `split('\n')` are embedded as explicit functions below.
  `toLowerCase`/`trim` are modelled for the ASCII range, which covers
  every string the claims mention; the `$`-escape interpretation JS
  applies to the replacement argument of `replace` is not modelled
  (replacement strings without `$` behave literally).
* The filesystem is modelled as explicit data (an association list of
  files for `edit_file`, a tree of nodes for `list_directory` and
  `search_files`); I/O errors (unreadable directories, stat failures)
  are outside the model.
* Console output is not modelled except where a claim depends on it
  (the final-answer print and the max-iterations warning of the agent
  loop are tracked as counters/flags in the loop state).
-/

namespace PuterAgent

/-! ## JS string operations -/

/-- JS `haystack.includes(needle)`: substring containment. -/
def jsIncludes (s pat : String) : Bool :=
  decide (pat.data <:+: s.data)

/-- JS `String.prototype.replace` with a *string* pattern replaces only the
first occurrence.  List-level worker. -/
def jsReplaceFirstList (pat rep : List Char) : List Char → List Char
  | [] => if pat = [] then rep else []
  | c :: rest =>
    if pat <+: (c :: rest) then rep ++ (c :: rest).drop pat.length
    else c :: jsReplaceFirstList pat rep rest

/-- JS `s.replace(pat, rep)` (string pattern: first occurrence only). -/
def jsReplaceFirst (s pat rep : String) : String :=
  ⟨jsReplaceFirstList pat.data rep.data s.data⟩

/-- Replace-all on character lists: what the spec sentence
"replaces all occurrences" describes.  Modelled from the spec's words,
for comparison with the source's `jsReplaceFirst`.  `fuel` (the input
length suffices) makes the recursion structural. -/
def specReplaceAllGo (pat rep : List Char) : Nat → List Char → List Char
  | 0, s => s
  | fuel + 1, s =>
    match s with
    | [] => []
    | c :: rest =>
      if pat ≠ [] ∧ pat <+: (c :: rest) then
        rep ++ specReplaceAllGo pat rep fuel ((c :: rest).drop pat.length)
      else
        c :: specReplaceAllGo pat rep fuel rest

/-- Replace-all on strings (spec-side reference). -/
def specReplaceAll (s pat rep : String) : String :=
  ⟨specReplaceAllGo pat.data rep.data s.data.length s.data⟩

/-- JS `answer.toLowerCase()` (ASCII range). -/
def jsToLower (s : String) : String := ⟨s.data.map Char.toLower⟩

/-- JS whitespace for `trim` (ASCII range). -/
def jsIsWS (c : Char) : Bool :=
  c = ' ' || c = '\t' || c = '\n' || c = '\r' || c = '\x0b' || c = '\x0c'

/-- JS `s.trim()`: strip whitespace from both ends. -/
def jsTrim (s : String) : String :=
  ⟨((s.data.dropWhile jsIsWS).reverse.dropWhile jsIsWS).reverse⟩

/-- The normalization `askPermission` applies before resolving:
`answer.toLowerCase().trim()` (src/agent.js, line 178). -/
def normalizeAnswer (raw : String) : String := jsTrim (jsToLower raw)

/-! ## Tool registry and risk tags (src/tools.js, TOOL_RISK) -/

inductive Risk where
  | safe
  | ask
  | danger
deriving DecidableEq, Repr

/-- The `TOOL_RISK` table of src/tools.js. -/
def TOOL_RISK : List (String × Risk) :=
  [("read_file", .safe),
   ("list_directory", .safe),
   ("search_files", .safe),
   ("get_project_info", .safe),
   ("write_file", .ask),
   ("edit_file", .ask),
   ("run_command", .danger)]

/-- `TOOL_RISK[name] || 'ask'` (src/agent.js, line 188): lookup with
fail-safe default. -/
def riskOf (name : String) : Risk :=
  ((TOOL_RISK.find? (fun p => p.1 == name)).map (·.2)).getD .ask

/-! ## Filesystem for `edit_file` (src/tools.js, editFileImpl) -/

/-- A flat file store: resolved path ↦ content.  `path.resolve` is
modelled as the identity (paths are taken already resolved). -/
structure FS where
  files : List (String × String)

def FS.read (fs : FS) (p : String) : Option String :=
  (fs.files.find? (fun q => q.1 == p)).map (·.2)

def FS.write (fs : FS) (p c : String) : FS :=
  ⟨(p, c) :: fs.files.filter (fun q => q.1 != p)⟩

theorem FS.read_write (fs : FS) (p c : String) :
    (fs.write p c).read p = some c := by
  simp [FS.read, FS.write, List.find?]

/-- `editFileImpl` (src/tools.js, lines 414-427): read the file, fail with
an error string when the target is absent, otherwise `content.replace`
(first occurrence) and write back.  Returns the new store and the
result text; a missing file is the `catch` path rendering `err.message`. -/
def editFileImpl (fs : FS) (p target replacement : String) : FS × String :=
  match fs.read p with
  | none => (fs, s!"Error editing file: ENOENT: no such file or directory, open {p}")
  | some content =>
    if jsIncludes content target then
      let newContent := jsReplaceFirst content target replacement
      (fs.write p newContent, s!"File edited successfully: {p}")
    else
      (fs, s!"Error: Target string not found in {p}. Make sure it matches exactly.")

/-! ## Permission gate and per-tool-call handling (src/agent.js, handleToolCall) -/

inductive Decision where
  | allowed
  | denied
  | skipped
deriving DecidableEq, Repr

/-- The decision `handleToolCall` derives from the (already normalized)
permission answer: `'n'/'no'` deny, `'skip'/'s'` skip, anything else —
including the empty string, `'y'` and `'yes'` — falls through to
execution (src/agent.js, lines 231-232). -/
def decisionFor (ans : String) : Decision :=
  if ans = "n" ∨ ans = "no" then .denied
  else if ans = "skip" ∨ ans = "s" then .skipped
  else .allowed

/-- A tool call as produced by `normalizeToolCalls`; arguments only feed
the preview rendering and the executor, both opaque here. -/
structure ToolCall where
  id : String
  name : String
deriving DecidableEq, Repr

/-- What `executeTool` does for one invocation: either return a value
(`none` models a falsy/undefined result, `some ""` an empty string) or
throw with a message (caught by `handleToolCall`'s try/catch). -/
inductive ExecOutcome where
  | ok (res : Option String)
  | thrown (msg : String)
deriving DecidableEq, Repr

/-- `(await executeTool(...)) || '(no output)'` (src/agent.js, line 236)
together with the catch path (line 258). -/
def execResultText (exec : ExecOutcome) : String :=
  match exec with
  | .thrown msg => "Error executing tool: " ++ msg
  | .ok none => "(no output)"
  | .ok (some s) => if s = "" then "(no output)" else s

/-- Observable events of one `handleToolCall` run, in order:
the permission question being asked, the decision obtained from the
human answer, and the executor being invoked. -/
inductive Event where
  | prompted
  | decided (d : Decision)
  | executed (name : String)
deriving DecidableEq, Repr

structure HandleResult where
  result : String
  events : List Event
deriving DecidableEq, Repr

/-- `handleToolCall(toolCall, projectDir, autoApprove)`
(src/agent.js, lines 185-260).  The preview rendering (diff / content
preview) is console output and not modelled; `answerLine` is the raw
line of human input the prompt would read; `exec` is what `executeTool`
does for this call. -/
def handleToolCall (tc : ToolCall) (autoApprove : Bool)
    (answerLine : String) (exec : ExecOutcome) : HandleResult :=
  let risk := riskOf tc.name
  if risk ≠ .safe ∧ autoApprove = false then
    let ans := normalizeAnswer answerLine
    if ans = "n" ∨ ans = "no" then
      ⟨"Operation denied by user.", [.prompted, .decided .denied]⟩
    else if ans = "skip" ∨ ans = "s" then
      ⟨"Operation skipped by user.", [.prompted, .decided .skipped]⟩
    else
      ⟨execResultText exec, [.prompted, .decided .allowed, .executed tc.name]⟩
  else
    ⟨execResultText exec, [.executed tc.name]⟩

/-! ## Conversation history and the agent loop (src/agent.js, runAgentLoop) -/

inductive Role where
  | system
  | user
  | assistant
  | tool
deriving DecidableEq, Repr

/-- One history entry, after `normalizeAssistantMessage` for assistant
turns (OpenAI shape: optional text content plus `tool_calls`). -/
structure Msg where
  role : Role
  content : Option String := none
  tool_call_id : Option String := none
  tool_calls : List ToolCall := []
deriving DecidableEq, Repr

/-- The assistant turn `normalizeAssistantMessage` appends
(src/agent.js, lines 81-122): text content plus the normalized calls. -/
def normalizeAssistantMsg (text : Option String) (calls : List ToolCall) : Msg :=
  { role := .assistant, content := text, tool_calls := calls }

/-- The tool turn pushed per tool call (src/agent.js, lines 325-329). -/
def toolMsg (tc : ToolCall) (result : String) : Msg :=
  { role := .tool, content := some result, tool_call_id := some tc.id }

/-- Environment of one tool dispatch: the human answer the prompt would
read and the executor's behavior, indexed by dispatch number. -/
structure ToolCtx where
  answer : String
  exec : ExecOutcome

/-- The `for (const tc of toolCalls)` body (src/agent.js, lines 322-330):
dispatch each call in order through `handleToolCall`, appending one tool
turn per call.  Returns the tool turns and the next dispatch index. -/
def dispatchCalls (autoApprove : Bool) (ctx : Nat → ToolCtx) :
    List ToolCall → Nat → List Msg × Nat
  | [], k => ([], k)
  | tc :: rest, k =>
    let h := handleToolCall tc autoApprove (ctx k).answer (ctx k).exec
    let r := dispatchCalls autoApprove ctx rest (k + 1)
    (toolMsg tc h.result :: r.1, r.2)

/-- One model-provider response as the loop sees it after
`normalizeToolCalls`: a reply (text plus tool calls), a rate-limit
error (retried after a backoff), or any other error (stops the loop). -/
inductive ModelStep where
  | reply (text : Option String) (calls : List ToolCall)
  | errRateLimit
  | errOther
deriving Repr

/-- `textParts && textParts.trim()`: the final-answer print condition. -/
def textNonblank : Option String → Bool
  | none => false
  | some s => s ≠ "" && jsTrim s ≠ ""

structure LoopState where
  messages : List Msg
  iterations : Nat := 0
  modelCalls : Nat := 0
  toolsDispatched : Nat := 0
  finalsPrinted : Nat := 0
  stoppedByError : Bool := false
deriving Repr

/-- The body of `runAgentLoop`'s `while (iterations < maxIterations)`
(src/agent.js, lines 287-352), with `fuel = maxIterations - iterations`.
Faithful to the source: the no-tool-calls branch prints the final text
but does **not** break, so the loop proceeds to the next iteration. -/
def runLoopAux (oracle : Nat → ModelStep) (ctx : Nat → ToolCtx)
    (autoApprove : Bool) : Nat → LoopState → LoopState
  | 0, st => st
  | fuel + 1, st =>
    let st := { st with iterations := st.iterations + 1 }
    match oracle st.modelCalls with
    | .reply text calls =>
      let st := { st with modelCalls := st.modelCalls + 1 }
      let aMsg := normalizeAssistantMsg text calls
      let st := { st with messages := st.messages ++ [aMsg] }
      if calls ≠ [] then
        let d := dispatchCalls autoApprove ctx calls st.toolsDispatched
        runLoopAux oracle ctx autoApprove fuel
          { st with messages := st.messages ++ d.1, toolsDispatched := d.2 }
      else
        runLoopAux oracle ctx autoApprove fuel
          { st with finalsPrinted :=
              st.finalsPrinted + (if textNonblank text then 1 else 0) }
    | .errRateLimit =>
      runLoopAux oracle ctx autoApprove fuel
        { st with modelCalls := st.modelCalls + 1 }
    | .errOther =>
      { st with modelCalls := st.modelCalls + 1, stoppedByError := true }

/-- `runAgentLoop(puter, messages, model, projectDir, autoApprove,
maxIterations = 25)`: returns the final state and whether the
max-iterations warning was printed (`iterations >= maxIterations`). -/
def runAgentLoop (oracle : Nat → ModelStep) (ctx : Nat → ToolCtx)
    (autoApprove : Bool) (messages : List Msg) (maxIterations : Nat := 25) :
    LoopState × Bool :=
  let final := runLoopAux oracle ctx autoApprove maxIterations
    { messages := messages }
  (final, decide (maxIterations ≤ final.iterations))

/-! ## `list_directory` (src/tools.js, listDirectoryImpl) -/

/-- A directory tree.  File sizes are what `fs.stat` would report. -/
inductive FsNode where
  | file (name : String) (size : Nat)
  | dir (name : String) (children : List FsNode)
deriving Repr

def FsNode.name : FsNode → String
  | .file n _ => n
  | .dir n _ => n

def FsNode.isDir : FsNode → Bool
  | .file _ _ => false
  | .dir _ _ => true

/-- The `SKIP_DIRS` deny-list (src/tools.js, lines 435-444). -/
def SKIP_DIRS : List String :=
  ["node_modules", ".git", "__pycache__", ".next", "dist", ".cache",
   ".gemini", ".vscode", ".idea", "AppData", "Application Data",
   "Local Settings", "Desktop", "Documents", "Downloads", "Music",
   "Pictures", "Videos", "OneDrive", "Contacts", "Favorites",
   "Links", "Saved Games", "Searches", "PrintHood", "Recent",
   "SendTo", "Templates", "NetHood", "ntuser.dat", "NTUSER.DAT",
   "coverage", ".nyc_output", ".angular", ".npm", ".yarn",
   ".nuget", ".dotnet", ".cargo", "vendor", "target"]

/-- `SKIP_DIRS.has(entry.name) || entry.name.startsWith('ntuser')`. -/
def isSkippedName (n : String) : Bool :=
  SKIP_DIRS.contains n || n.startsWith "ntuser"

/-- The sort comparator (src/tools.js, lines 452-456): directories before
files, otherwise by name (`localeCompare` modelled as code-point order). -/
def entryLE (a b : FsNode) : Bool :=
  if a.isDir && !b.isDir then true
  else if !a.isDir && b.isDir then false
  else (compare a.name b.name).isLE

def sortEntries (l : List FsNode) : List FsNode :=
  List.insertionSort (fun a b => entryLE a b = true) l

theorem sortEntries_perm (l : List FsNode) : List.Perm (sortEntries l) l :=
  List.perm_insertionSort _ l

/-- The human-scaled size string (src/tools.js, lines 480-482).
`toFixed(1)` on the floating quotient is modelled as decimal
rounding-to-nearest (half up); no claim reads this text. -/
def sizeStr (size : Nat) : String :=
  if size < 1024 then s!"{size}B"
  else if size < 1048576 then
    let t := (size * 10 + 512) / 1024
    s!"{t / 10}.{t % 10}KB"
  else
    let t := (size * 10 + 524288) / 1048576
    s!"{t / 10}.{t % 10}MB"

/-- One line of `list_directory` output, tagged by the push site that
produced it: a listed entry, or the cap notice. -/
inductive OutLine where
  | entry (s : String)
  | notice (s : String)
deriving DecidableEq, Repr

def OutLine.render : OutLine → String
  | .entry s => s
  | .notice s => s

def OutLine.isNotice : OutLine → Bool
  | .entry _ => false
  | .notice _ => true

/-- The `for (const entry of sorted)` loop of `listDir`
(src/tools.js, lines 446-494), threading the shared `entryCount`.
Processing a subdirectory is delegated to `subF` (instantiated below
with the next recursion level), which receives the already-sorted
children, the incremented depth, the extended indentation `pre`, and
the running count; the depth/cap guard of `listDir`'s entry is checked
before delegating, exactly as in the source. -/
def listDirGo (recursive : Bool) (maxDepth maxEntries : Nat)
    (subF : List FsNode → Nat → String → Nat → List OutLine × Nat) :
    List FsNode → Nat → String → Nat → List OutLine × Nat
  | [], _, _, count => ([], count)
  | e :: rest, depth, pre, count =>
    if maxEntries ≤ count then
      ([.notice (pre ++ s!"... (capped at {maxEntries} entries)")], count)
    else if isSkippedName e.name then
      let m := listDirGo recursive maxDepth maxEntries subF rest depth pre (count + 1)
      (.entry (pre ++ e.name ++ "/ [skipped]") :: m.1, m.2)
    else
      match e with
      | .dir n cs =>
        let s :=
          if recursive then
            if maxDepth < depth + 1 ∨ maxEntries ≤ count + 1 then
              (([] : List OutLine), count + 1)
            else subF (sortEntries cs) (depth + 1) (pre ++ "  ") (count + 1)
          else ([], count + 1)
        let m := listDirGo recursive maxDepth maxEntries subF rest depth pre s.2
        (.entry (pre ++ n ++ "/") :: (s.1 ++ m.1), m.2)
      | .file n size =>
        let m := listDirGo recursive maxDepth maxEntries subF rest depth pre (count + 1)
        (.entry (pre ++ n ++ " (" ++ sizeStr size ++ ")") :: m.1, m.2)

/-- `listDir` with its depth recursion unrolled on `fuel` (the source
bounds the depth by `maxDepth`, so any `fuel ≥ maxDepth` is exact):
at fuel 0 a subdirectory contributes nothing beyond its own entry
line, exactly like the `depth > maxDepth` guard. -/
def listEntries (recursive : Bool) (maxDepth maxEntries : Nat) :
    Nat → List FsNode → Nat → String → Nat → List OutLine × Nat
  | 0 => listDirGo recursive maxDepth maxEntries (fun _ _ _ c => ([], c))
  | fuel + 1 =>
    listDirGo recursive maxDepth maxEntries
      (listEntries recursive maxDepth maxEntries fuel)

/-- `listDirectoryImpl` (src/tools.js, lines 429-498): `maxDepth` is 3
when recursive else 1, the cap is 200 entries, the root call is
`listDir(dirPath, 1)` (whose entry guard `1 > maxDepth || 0 >= 200` is
vacuously false). -/
def listDirectoryImpl (recursive : Bool) (root : List FsNode) :
    List OutLine × Nat :=
  let maxDepth := if recursive then 3 else 1
  listEntries recursive maxDepth 200 (maxDepth + 1) (sortEntries root) 1 "" 0

/-- `items.join('\n') || '(empty directory)'`. -/
def listDirectoryOutput (recursive : Bool) (root : List FsNode) : String :=
  let lines := (listDirectoryImpl recursive root).1.map OutLine.render
  if lines = [] then "(empty directory)" else String.intercalate "\n" lines

/-- Entries the traversal would list, were there no 200-entry cap: one
per entry reachable within the depth bound, not descending into
deny-listed directories.  Reference count for the claims about the cap. -/
def visitGo (recursive : Bool) (maxDepth : Nat)
    (subF : List FsNode → Nat → Nat) : List FsNode → Nat → Nat
  | [], _ => 0
  | .file _ _ :: rest, depth => 1 + visitGo recursive maxDepth subF rest depth
  | .dir n cs :: rest, depth =>
    1 + (if (!isSkippedName n && recursive
            && decide (depth + 1 ≤ maxDepth)) = true then
           subF cs (depth + 1)
         else 0)
      + visitGo recursive maxDepth subF rest depth

/-- The reference count, with the nesting recursion unrolled on `fuel`
(any `fuel ≥ maxDepth` is exact, since the `depth + 1 ≤ maxDepth` guard
stops the recursion first). -/
def visitCountList (recursive : Bool) (maxDepth : Nat) :
    Nat → List FsNode → Nat → Nat
  | 0 => visitGo recursive maxDepth (fun _ _ => 0)
  | fuel + 1 =>
    visitGo recursive maxDepth (visitCountList recursive maxDepth fuel)

def totalGo (subF : List FsNode → Nat) : List FsNode → Nat
  | [] => 0
  | .file _ _ :: rest => 1 + totalGo subF rest
  | .dir _ cs :: rest => 1 + subF cs + totalGo subF rest

/-- Total number of entries anywhere in a tree (no depth bound), the
nesting recursion unrolled on `fuel` (exact for any `fuel` at least the
tree's nesting depth). -/
def totalCountList : Nat → List FsNode → Nat
  | 0 => totalGo (fun _ => 0)
  | fuel + 1 => totalGo (totalCountList fuel)

/-! ## `search_files` (src/tools.js, searchFilesImpl) -/

/-- A directory tree with file contents (what `fs.readFile` returns). -/
inductive SNode where
  | file (name content : String)
  | dir (name : String) (children : List SNode)
deriving Repr

def SNode.name : SNode → String
  | .file n _ => n
  | .dir n _ => n

/-- Directory names `walkDir` skips silently (src/tools.js, line 525). -/
def SEARCH_SKIP : List String :=
  ["node_modules", ".git", "__pycache__", ".next", "dist"]

/-- JS `path.extname`: from the last `'.'` to the end; empty when there
is no dot or the only dot leads the basename. -/
def jsExtname (n : String) : String :=
  let cs := n.data
  match (cs.enum.filter (fun p => p.2 = '.')).getLast? with
  | none => ""
  | some (0, _) => ""
  | some (i, _) => ⟨cs.drop i⟩

/-- `args.file_pattern.replace('*', '')`: remove the first `'*'`. -/
def removeFirstStar (s : String) : String :=
  ⟨jsReplaceFirstList ['*'] [] s.data⟩

/-- The file-pattern filter (src/tools.js, lines 532-535): skip the file
when the name neither ends with the de-starred pattern nor has it as
its extension. -/
def filePatternSkips (filePat : Option String) (name : String) : Bool :=
  match filePat with
  | none => false
  | some fp =>
    let p := removeFirstStar fp
    !(name.endsWith p) && jsExtname name != p

/-- One recorded match: `relPath:line: trimmedText` (1-based line). -/
def mkMatch (relPath : String) (i : Nat) (line : String) : String :=
  s!"{relPath}:{i + 1}: {line.trim}"

/-- Relative path of a child under `rel`. -/
def childRel (rel n : String) : String :=
  if rel = "" then n else rel ++ "/" ++ n

/-- `searchInFile` (src/tools.js, lines 505-517): scan the split lines in
order, pushing matches and returning as soon as the cap is reached. -/
def searchFileGo (pat relPath : String) :
    List (Nat × String) → List String → List String
  | [], acc => acc
  | (i, line) :: rest, acc =>
    if jsIncludes line pat then
      let acc' := acc ++ [mkMatch relPath i line]
      if 30 ≤ acc'.length then acc'
      else searchFileGo pat relPath rest acc'
    else searchFileGo pat relPath rest acc

/-- One level of `walkDir` (src/tools.js, lines 519-541), threading the
shared `results` array; descending into a subdirectory is delegated to
`subF` (instantiated below with the next recursion level) after the
depth/cap entry guard, exactly as in the source. -/
def searchGo (pat : String) (filePat : Option String)
    (subF : List SNode → Nat → String → List String → List String) :
    List SNode → (depth : Nat) → (rel : String) → List String → List String
  | [], _, _, acc => acc
  | e :: rest, depth, rel, acc =>
    if 30 ≤ acc.length then acc
    else if SEARCH_SKIP.contains e.name then
      searchGo pat filePat subF rest depth rel acc
    else
      match e with
      | .dir n cs =>
        let acc₁ :=
          if 5 < depth + 1 ∨ 30 ≤ acc.length then acc
          else subF cs (depth + 1) (childRel rel n) acc
        searchGo pat filePat subF rest depth rel acc₁
      | .file n content =>
        let acc₁ :=
          if filePatternSkips filePat n then acc
          else searchFileGo pat (childRel rel n) ((content.splitOn "\n").enum) acc
        searchGo pat filePat subF rest depth rel acc₁

/-- `walkDir` with its depth recursion unrolled on `fuel` (the source
bounds the depth by `depth > 5`, so any `fuel ≥ 6` is exact). -/
def searchWalk (pat : String) (filePat : Option String) :
    Nat → List SNode → Nat → String → List String → List String
  | 0 => searchGo pat filePat (fun _ _ _ acc => acc)
  | fuel + 1 => searchGo pat filePat (searchWalk pat filePat fuel)

/-- `searchFilesImpl` (src/tools.js, lines 500-547): run the walk from the
root at depth 0, then join with the cap notice, or return the sentinel. -/
def searchFilesImpl (pat : String) (filePat : Option String)
    (root : List SNode) : String :=
  let results := searchWalk pat filePat 6 root 0 "" []
  if results.length > 0 then
    String.intercalate "\n" results ++
      (if 30 ≤ results.length then "\n... (capped at 30 results)" else "")
  else "No matches found."

/-- All matches of one file, were there no 30-result cap. -/
def fileMatches (pat relPath content : String) : List String :=
  ((content.splitOn "\n").enum).filterMap fun p =>
    if jsIncludes p.2 pat then some (mkMatch relPath p.1 p.2) else none

/-- All matches one level of the walk would record, were there no
30-result cap: same traversal order, skip list, depth bound and file
filter; subdirectories delegated to `subF`. -/
def allGo (pat : String) (filePat : Option String)
    (subF : List SNode → Nat → String → List String) :
    List SNode → (depth : Nat) → (rel : String) → List String
  | [], _, _ => []
  | e :: rest, depth, rel =>
    if SEARCH_SKIP.contains e.name then allGo pat filePat subF rest depth rel
    else
      match e with
      | .dir n cs =>
        (if 5 < depth + 1 then [] else subF cs (depth + 1) (childRel rel n))
          ++ allGo pat filePat subF rest depth rel
      | .file n content =>
        (if filePatternSkips filePat n then []
         else fileMatches pat (childRel rel n) content)
          ++ allGo pat filePat subF rest depth rel

/-- All matches the walk would record, were there no 30-result cap.
Reference list for the claims about the cap. -/
def allMatches (pat : String) (filePat : Option String) :
    Nat → List SNode → Nat → String → List String
  | 0 => allGo pat filePat (fun _ _ _ => [])
  | fuel + 1 => allGo pat filePat (allMatches pat filePat fuel)

/-! ## Helper lemmas -/

theorem handleToolCall_result_ne_empty (tc : ToolCall) (auto : Bool)
    (ans : String) (exec : ExecOutcome) :
    (handleToolCall tc auto ans exec).result ≠ "" := by
  have hexec : execResultText exec ≠ "" := by
    unfold execResultText
    match exec with
    | .thrown msg =>
      intro h
      have h2 := congrArg String.data h
      rw [String.data_append] at h2
      simp at h2
    | .ok none => decide
    | .ok (some s) =>
      by_cases hs : s = "" <;> simp [hs]
  unfold handleToolCall
  by_cases hg : riskOf tc.name ≠ Risk.safe ∧ auto = false
  · by_cases h1 : normalizeAnswer ans = "n" ∨ normalizeAnswer ans = "no"
    · simp [hg, h1]
    · by_cases h2 : normalizeAnswer ans = "skip" ∨ normalizeAnswer ans = "s"
      · simp [hg, h1, h2]
      · simpa [hg, h1, h2] using hexec
  · simpa [hg] using hexec

/-! ## Claim theorems -/

/-- C2: with auto-approve off and a non-safe risk, `handleToolCall`
prompts first and obtains a decision before any executor invocation,
and does not execute at all on deny/skip; with auto-approve on (or a
safe tool) the permission question never happens and the tool executes
directly. -/
theorem permissionGate_order_and_bypass (tc : ToolCall) (auto : Bool)
    (ans : String) (exec : ExecOutcome) :
    (handleToolCall tc auto ans exec).events =
      if riskOf tc.name ≠ Risk.safe ∧ auto = false then
        Event.prompted :: Event.decided (decisionFor (normalizeAnswer ans)) ::
          (if decisionFor (normalizeAnswer ans) = Decision.allowed then
            [Event.executed tc.name] else [])
      else [Event.executed tc.name] := by
  unfold handleToolCall decisionFor
  by_cases hg : riskOf tc.name ≠ Risk.safe ∧ auto = false
  · by_cases h1 : normalizeAnswer ans = "n" ∨ normalizeAnswer ans = "no"
    · simp [hg, h1]
    · by_cases h2 : normalizeAnswer ans = "skip" ∨ normalizeAnswer ans = "s"
      · simp [hg, h1, h2]
      · simp [hg, h1, h2]
  · simp [hg]

/-- C3: when the file's current content does not contain the target
string, `edit_file` returns the error text and leaves the file store
untouched (no exception: the embedding is a total function into
result text). -/
theorem editFile_missing_target_no_write (fs : FS) (p target repl content : String)
    (hread : fs.read p = some content)
    (habsent : jsIncludes content target = false) :
    editFileImpl fs p target repl =
      (fs, s!"Error: Target string not found in {p}. Make sure it matches exactly.") := by
  unfold editFileImpl
  rw [hread]
  simp [habsent]

theorem editFile_missing_target_no_write_witness :
    (FS.read ⟨[("a.txt", "hello")]⟩ "a.txt" = some "hello"
      ∧ jsIncludes "hello" "xyz" = false)
    ∧ editFileImpl ⟨[("a.txt", "hello")]⟩ "a.txt" "xyz" "r" =
        (⟨[("a.txt", "hello")]⟩,
         "Error: Target string not found in a.txt. Make sure it matches exactly.") :=
  ⟨⟨by decide, by decide⟩,
   editFile_missing_target_no_write ⟨[("a.txt", "hello")]⟩ "a.txt" "xyz" "r" "hello"
     (by decide) (by decide)⟩

/-- C4 counterexample: on content `"aa"` with target `"a"` and
replacement `"b"`, the code writes `"ba"` (JS `String.replace` with a
string pattern replaces only the first occurrence), while replacing
all occurrences would give `"bb"`. -/
theorem editFile_replaces_only_first_cex :
    (editFileImpl ⟨[("f.txt", "aa")]⟩ "f.txt" "a" "b").1.read "f.txt" = some "ba"
    ∧ specReplaceAll "aa" "a" "b" = "bb"
    ∧ ("ba" : String) ≠ "bb" := by
  refine ⟨by decide, by decide, by decide⟩

/-- C4 amended: for every file whose content contains the target at
least once, `edit_file` replaces the **first** occurrence of the target
with the replacement and writes the result back. -/
theorem editFile_replaces_first_occurrence (fs : FS) (p target repl content : String)
    (hread : fs.read p = some content)
    (hpresent : jsIncludes content target = true) :
    (editFileImpl fs p target repl).1.read p
        = some (jsReplaceFirst content target repl)
    ∧ (editFileImpl fs p target repl).2 = s!"File edited successfully: {p}" := by
  unfold editFileImpl
  rw [hread]
  simp [hpresent, FS.read_write]

theorem editFile_replaces_first_occurrence_witness :
    (FS.read ⟨[("f.txt", "aca")]⟩ "f.txt" = some "aca"
      ∧ jsIncludes "aca" "a" = true)
    ∧ (editFileImpl ⟨[("f.txt", "aca")]⟩ "f.txt" "a" "b").1.read "f.txt"
        = some (jsReplaceFirst "aca" "a" "b")
    ∧ (editFileImpl ⟨[("f.txt", "aca")]⟩ "f.txt" "a" "b").2
        = "File edited successfully: f.txt" :=
  ⟨⟨by decide, by decide⟩,
   editFile_replaces_first_occurrence ⟨[("f.txt", "aca")]⟩ "f.txt" "a" "b" "aca"
     (by decide) (by decide)⟩

/-- C5: for a non-safe tool with auto-approve off, the decision is
computed from the lowercased, trimmed input line: `n`/`no` produce
exactly `Operation denied by user.`, `skip`/`s` produce exactly
`Operation skipped by user.` — in both cases the executor is never
invoked (short-circuit) — and every other input (empty, `y`, `yes`,
anything else) lets the tool execute, the result being the executor's
text. -/
theorem permissionPrompt_decision_results (tc : ToolCall) (ans : String)
    (exec : ExecOutcome) (hrisk : riskOf tc.name ≠ Risk.safe) :
    ((handleToolCall tc false ans exec).result =
      (if jsTrim (jsToLower ans) = "n" ∨ jsTrim (jsToLower ans) = "no" then
        "Operation denied by user."
      else if jsTrim (jsToLower ans) = "skip" ∨ jsTrim (jsToLower ans) = "s" then
        "Operation skipped by user."
      else execResultText exec))
    ∧ ((jsTrim (jsToLower ans) = "n" ∨ jsTrim (jsToLower ans) = "no"
        ∨ jsTrim (jsToLower ans) = "skip" ∨ jsTrim (jsToLower ans) = "s") →
        Event.executed tc.name ∉ (handleToolCall tc false ans exec).events)
    ∧ (¬(jsTrim (jsToLower ans) = "n" ∨ jsTrim (jsToLower ans) = "no"
        ∨ jsTrim (jsToLower ans) = "skip" ∨ jsTrim (jsToLower ans) = "s") →
        Event.executed tc.name ∈ (handleToolCall tc false ans exec).events) := by
  unfold handleToolCall normalizeAnswer
  by_cases h1 : jsTrim (jsToLower ans) = "n" ∨ jsTrim (jsToLower ans) = "no"
  · refine ⟨by simp [hrisk, h1], by simp [hrisk, h1], ?_⟩
    intro hn
    exact absurd (Or.elim h1 (fun h => Or.inl h) (fun h => Or.inr (Or.inl h))) hn
  · by_cases h2 : jsTrim (jsToLower ans) = "skip" ∨ jsTrim (jsToLower ans) = "s"
    · refine ⟨by simp [hrisk, h1, h2], by simp [hrisk, h1, h2], ?_⟩
      intro hn
      exact absurd
        (Or.elim h2 (fun h => Or.inr (Or.inr (Or.inl h)))
          (fun h => Or.inr (Or.inr (Or.inr h)))) hn
    · refine ⟨by simp [hrisk, h1, h2], ?_, by simp [hrisk, h1, h2]⟩
      intro hor
      exact absurd hor (by tauto)

theorem permissionPrompt_decision_results_witness :
    riskOf "write_file" ≠ Risk.safe
    ∧ (handleToolCall ⟨"c1", "write_file"⟩ false " No " (.ok (some "x"))).result
        = "Operation denied by user." := by
  refine ⟨by decide, ?_⟩
  have h := (permissionPrompt_decision_results ⟨"c1", "write_file"⟩ " No "
    (.ok (some "x")) (by decide)).1
  rw [h]
  decide

/-- C9: the risk lookup is total; the four read-only tools are `safe`,
`write_file`/`edit_file` are `ask`, `run_command` is `danger`, every
name outside the registry defaults to `ask`, and no name outside the
four read-only tools is ever `safe`. -/
theorem toolRisk_total_lookup :
    riskOf "read_file" = Risk.safe
    ∧ riskOf "list_directory" = Risk.safe
    ∧ riskOf "search_files" = Risk.safe
    ∧ riskOf "get_project_info" = Risk.safe
    ∧ riskOf "write_file" = Risk.ask
    ∧ riskOf "edit_file" = Risk.ask
    ∧ riskOf "run_command" = Risk.danger
    ∧ (∀ name : String, name ∉ TOOL_RISK.map Prod.fst → riskOf name = Risk.ask)
    ∧ (∀ name : String, riskOf name = Risk.safe →
        name ∈ ["read_file", "list_directory", "search_files", "get_project_info"]) := by
  refine ⟨by decide, by decide, by decide, by decide, by decide, by decide, by decide,
    ?_, ?_⟩
  · intro name hname
    unfold riskOf
    have hfind : TOOL_RISK.find? (fun p => p.1 == name) = none := by
      apply List.find?_eq_none.mpr
      intro x hx
      simp only [beq_iff_eq]
      intro hEq
      exact hname (hEq ▸ List.mem_map_of_mem Prod.fst hx)
    rw [hfind]
    rfl
  · intro name hsafe
    unfold riskOf at hsafe
    cases hfind : TOOL_RISK.find? (fun p => p.1 == name) with
    | none => rw [hfind] at hsafe; exact absurd hsafe (by decide)
    | some pr =>
      rw [hfind] at hsafe
      simp only [Option.map_some', Option.getD_some] at hsafe
      have hmem := List.mem_of_find?_eq_some hfind
      have hbeq := List.find?_some hfind
      have hname : pr.1 = name := by simpa using hbeq
      simp only [TOOL_RISK, List.mem_cons, List.not_mem_nil, or_false] at hmem
      rcases hmem with h | h | h | h | h | h | h <;> subst h <;>
        first
        | exact absurd hsafe (by decide)
        | (rw [← hname]; decide)

theorem toolRisk_total_lookup_witness :
    ("frobnicate" : String) ∉ TOOL_RISK.map Prod.fst
    ∧ riskOf "frobnicate" = Risk.ask :=
  ⟨by decide,
   (toolRisk_total_lookup.2.2.2.2.2.2.2.1) "frobnicate" (by decide)⟩

/-- C10: for every list of ToolCalls dispatched, the loop body appends
exactly one tool turn per call, in order: the i-th appended message is
the tool turn of the i-th call, its content the (total, never-throwing)
`handleToolCall` result, which is never the empty string. -/
theorem toolTurns_one_per_call_nonempty :
    (∀ (tc : ToolCall) (auto : Bool) (ans : String) (exec : ExecOutcome),
      (handleToolCall tc auto ans exec).result ≠ "")
    ∧ (∀ (auto : Bool) (ctx : Nat → ToolCtx) (cs : List ToolCall) (k : Nat),
        (dispatchCalls auto ctx cs k).1.length = cs.length
        ∧ (dispatchCalls auto ctx cs k).2 = k + cs.length
        ∧ List.Forall₂ (fun tc m => ∃ r : String, m = toolMsg tc r ∧ r ≠ "")
            cs (dispatchCalls auto ctx cs k).1) := by
  refine ⟨handleToolCall_result_ne_empty, ?_⟩
  intro auto ctx cs
  induction cs with
  | nil => intro k; simp [dispatchCalls]
  | cons tc rest ih =>
    intro k
    obtain ⟨h1, h2, h3⟩ := ih (k + 1)
    refine ⟨?_, ?_, ?_⟩
    · simp [dispatchCalls, h1]
    · simp [dispatchCalls, h2]; omega
    · simp only [dispatchCalls]
      exact List.Forall₂.cons
        ⟨(handleToolCall tc auto (ctx k).answer (ctx k).exec).result, rfl,
          handleToolCall_result_ne_empty tc auto (ctx k).answer (ctx k).exec⟩ h3

theorem toolTurns_one_per_call_nonempty_witness :
    (handleToolCall ⟨"c1", "read_file"⟩ true "" (.ok (some ""))).result ≠ ""
    ∧ (dispatchCalls true (fun _ => ⟨"", .ok (some "txt")⟩)
        [⟨"c1", "read_file"⟩, ⟨"c2", "write_file"⟩] 0).1.length = 2 :=
  ⟨toolTurns_one_per_call_nonempty.1 ⟨"c1", "read_file"⟩ true "" (.ok (some "")),
   (toolTurns_one_per_call_nonempty.2 true (fun _ => ⟨"", .ok (some "txt")⟩)
     [⟨"c1", "read_file"⟩, ⟨"c2", "write_file"⟩] 0).1⟩

/-- Helper: each loop iteration makes exactly one model call, so the
final tally is bounded by the starting tally plus the fuel. -/
theorem runLoopAux_modelCalls_le (oracle : Nat → ModelStep) (ctx : Nat → ToolCtx)
    (auto : Bool) : ∀ (fuel : Nat) (st : LoopState),
    (runLoopAux oracle ctx auto fuel st).modelCalls ≤ st.modelCalls + fuel := by
  intro fuel
  induction fuel with
  | zero => intro st; simp [runLoopAux]
  | succ f ih =>
    intro st
    simp only [runLoopAux]
    cases h : oracle st.modelCalls with
    | reply text calls =>
      simp only [h]
      split
      · exact le_trans (ih _)
          (by show st.modelCalls + 1 + f ≤ st.modelCalls + (f + 1); omega)
      · exact le_trans (ih _)
          (by show st.modelCalls + 1 + f ≤ st.modelCalls + (f + 1); omega)
    | errRateLimit =>
      simp only [h]
      exact le_trans (ih _)
        (by show st.modelCalls + 1 + f ≤ st.modelCalls + (f + 1); omega)
    | errOther =>
      simp only [h]
      show st.modelCalls + 1 ≤ st.modelCalls + (f + 1)
      omega

/-- The model stub of the claim: every call requests the same tool call. -/
def stubToolOracle : Nat → ModelStep :=
  fun _ => .reply none [⟨"call-1", "read_file"⟩]

/-- Tool-dispatch environment for the stubs: empty answer line, executor
returns a fixed text. -/
def stubCtx : Nat → ToolCtx := fun _ => ⟨"", .ok (some "file contents")⟩

/-- C6: the agent loop makes at most `maxIterations` model calls and
terminates; on a stub that always requests a tool call, with
`maxIterations = 3`, it makes exactly 3 model calls and then takes the
max-iterations warning path without the error-stop path. -/
theorem agentLoop_bounded_iterations :
    (∀ (oracle : Nat → ModelStep) (ctx : Nat → ToolCtx) (auto : Bool)
      (msgs : List Msg) (maxIterations : Nat), 1 ≤ maxIterations →
      (runAgentLoop oracle ctx auto msgs maxIterations).1.modelCalls ≤ maxIterations)
    ∧ (runAgentLoop stubToolOracle stubCtx false [] 3).1.modelCalls = 3
    ∧ (runAgentLoop stubToolOracle stubCtx false [] 3).2 = true
    ∧ (runAgentLoop stubToolOracle stubCtx false [] 3).1.stoppedByError = false := by
  refine ⟨?_, by decide, by decide, by decide⟩
  intro oracle ctx auto msgs maxIterations _
  have h := runLoopAux_modelCalls_le oracle ctx auto maxIterations
    { messages := msgs }
  simpa [runAgentLoop] using h

theorem agentLoop_bounded_iterations_witness :
    (1 ≤ 2
      ∧ (runAgentLoop stubToolOracle stubCtx false [] 2).1.modelCalls ≤ 2)
    ∧ (runAgentLoop stubToolOracle stubCtx false [] 3).1.modelCalls = 3 :=
  ⟨⟨by decide,
    agentLoop_bounded_iterations.1 stubToolOracle stubCtx false [] 2 (by decide)⟩,
   agentLoop_bounded_iterations.2.1⟩

/-- The failing input for the claim that the loop stops on a reply with
zero tool calls: a model stub that always answers with plain text and
no tool calls. -/
def finalAnswerOracle : Nat → ModelStep :=
  fun _ => .reply (some "Added a guard clause.") []

/-- C1 (code bug): `runAgentLoop`'s no-tool-calls branch prints the text
as the final response but, lacking a `break`, does not stop: with
`maxIterations = 2` the loop makes a second model call, appends a
second assistant turn, prints the "final" text twice, and then takes
the max-iterations warning path — where the claim (and the source's own
`// No tool calls — final response` comment) say the loop stops after
the first reply with no further model calls or turns. -/
theorem agentLoop_continues_after_final_reply :
    (runAgentLoop finalAnswerOracle stubCtx false [] 2).1.modelCalls = 2
    ∧ (runAgentLoop finalAnswerOracle stubCtx false [] 2).1.finalsPrinted = 2
    ∧ (runAgentLoop finalAnswerOracle stubCtx false [] 2).1.messages =
        [normalizeAssistantMsg (some "Added a guard clause.") [],
         normalizeAssistantMsg (some "Added a guard clause.") []]
    ∧ (runAgentLoop finalAnswerOracle stubCtx false [] 2).2 = true := by
  refine ⟨by decide, by decide, by decide, by decide⟩

/-! ## Lemmas about the `list_directory` cap -/

theorem visitGo_cons (recursive : Bool) (maxDepth : Nat)
    (subF : List FsNode → Nat → Nat) (e : FsNode)
    (l : List FsNode) (depth : Nat) :
    visitGo recursive maxDepth subF (e :: l) depth
      = visitGo recursive maxDepth subF [e] depth
        + visitGo recursive maxDepth subF l depth := by
  cases e with
  | file n size => simp [visitGo]
  | dir n cs => simp [visitGo]

theorem visitGo_eq_sum (recursive : Bool) (maxDepth : Nat)
    (subF : List FsNode → Nat → Nat) (l : List FsNode) (depth : Nat) :
    visitGo recursive maxDepth subF l depth
      = (l.map (fun e => visitGo recursive maxDepth subF [e] depth)).sum := by
  induction l with
  | nil => simp [visitGo]
  | cons e rest ih => rw [visitGo_cons, ih]; simp

theorem visitGo_perm (recursive : Bool) (maxDepth : Nat)
    (subF : List FsNode → Nat → Nat) {l₁ l₂ : List FsNode}
    (h : List.Perm l₁ l₂) (depth : Nat) :
    visitGo recursive maxDepth subF l₁ depth
      = visitGo recursive maxDepth subF l₂ depth := by
  rw [visitGo_eq_sum, visitGo_eq_sum]
  exact List.Perm.sum_eq (h.map _)

theorem visitCountList_sortEntries (recursive : Bool) (maxDepth : Nat)
    (fuel : Nat) (l : List FsNode) (depth : Nat) :
    visitCountList recursive maxDepth fuel (sortEntries l) depth
      = visitCountList recursive maxDepth fuel l depth := by
  cases fuel with
  | zero => exact visitGo_perm recursive maxDepth _ (sortEntries_perm l) depth
  | succ f => exact visitGo_perm recursive maxDepth _ (sortEntries_perm l) depth

/-- Unfolding: the cap branch. -/
theorem listDirGo_cap (recursive : Bool) (maxDepth maxEntries : Nat)
    (subF : List FsNode → Nat → String → Nat → List OutLine × Nat)
    (e : FsNode) (rest : List FsNode) (depth : Nat) (pre : String) (count : Nat)
    (h1 : maxEntries ≤ count) :
    listDirGo recursive maxDepth maxEntries subF (e :: rest) depth pre count
      = ([.notice (pre ++ s!"... (capped at {maxEntries} entries)")], count) := by
  simp [listDirGo, h1]

/-- Unfolding: the deny-list branch (one `[skipped]` line, no descent). -/
theorem listDirGo_skip (recursive : Bool) (maxDepth maxEntries : Nat)
    (subF : List FsNode → Nat → String → Nat → List OutLine × Nat)
    (e : FsNode) (rest : List FsNode) (depth : Nat) (pre : String) (count : Nat)
    (h1 : ¬ maxEntries ≤ count) (h2 : isSkippedName e.name = true) :
    listDirGo recursive maxDepth maxEntries subF (e :: rest) depth pre count
      = (.entry (pre ++ e.name ++ "/ [skipped]") ::
          (listDirGo recursive maxDepth maxEntries subF rest depth pre (count + 1)).1,
         (listDirGo recursive maxDepth maxEntries subF rest depth pre (count + 1)).2) := by
  cases e with
  | file n size =>
    simp only [FsNode.name] at h2
    simp [listDirGo, h1, h2, FsNode.name]
  | dir n cs =>
    simp only [FsNode.name] at h2
    simp [listDirGo, h1, h2, FsNode.name]

/-- Unfolding: a file entry. -/
theorem listDirGo_file (recursive : Bool) (maxDepth maxEntries : Nat)
    (subF : List FsNode → Nat → String → Nat → List OutLine × Nat)
    (n : String) (size : Nat) (rest : List FsNode) (depth : Nat) (pre : String)
    (count : Nat) (h1 : ¬ maxEntries ≤ count) (h2 : isSkippedName n = false) :
    listDirGo recursive maxDepth maxEntries subF (.file n size :: rest) depth pre count
      = (.entry (pre ++ n ++ " (" ++ sizeStr size ++ ")") ::
          (listDirGo recursive maxDepth maxEntries subF rest depth pre (count + 1)).1,
         (listDirGo recursive maxDepth maxEntries subF rest depth pre (count + 1)).2) := by
  simp [listDirGo, h1, FsNode.name, h2]

/-- Unfolding: a directory entry that is not descended into (recursion
off, depth bound hit, or cap already reached by its own entry). -/
theorem listDirGo_dir_nosub (recursive : Bool) (maxDepth maxEntries : Nat)
    (subF : List FsNode → Nat → String → Nat → List OutLine × Nat)
    (n : String) (cs rest : List FsNode) (depth : Nat) (pre : String)
    (count : Nat) (h1 : ¬ maxEntries ≤ count) (h2 : isSkippedName n = false)
    (hstop : recursive = false ∨ maxDepth < depth + 1 ∨ maxEntries ≤ count + 1) :
    listDirGo recursive maxDepth maxEntries subF (.dir n cs :: rest) depth pre count
      = (.entry (pre ++ n ++ "/") ::
          (listDirGo recursive maxDepth maxEntries subF rest depth pre (count + 1)).1,
         (listDirGo recursive maxDepth maxEntries subF rest depth pre (count + 1)).2) := by
  rcases hstop with h | h
  · simp [listDirGo, h1, FsNode.name, h2, h]
  · have : (maxDepth < depth + 1 ∨ maxEntries ≤ count + 1) := h
    by_cases hrec : recursive = true
    · simp [listDirGo, h1, FsNode.name, h2, hrec, this]
    · have : recursive = false := by cases recursive <;> simp_all
      simp [listDirGo, h1, FsNode.name, h2, this]

/-- Unfolding: a directory entry that is descended into. -/
theorem listDirGo_dir_sub (recursive : Bool) (maxDepth maxEntries : Nat)
    (subF : List FsNode → Nat → String → Nat → List OutLine × Nat)
    (n : String) (cs rest : List FsNode) (depth : Nat) (pre : String)
    (count : Nat) (h1 : ¬ maxEntries ≤ count) (h2 : isSkippedName n = false)
    (hrec : recursive = true)
    (hg : ¬ (maxDepth < depth + 1 ∨ maxEntries ≤ count + 1)) :
    listDirGo recursive maxDepth maxEntries subF (.dir n cs :: rest) depth pre count
      = (.entry (pre ++ n ++ "/") ::
          ((subF (sortEntries cs) (depth + 1) (pre ++ "  ") (count + 1)).1
            ++ (listDirGo recursive maxDepth maxEntries subF rest depth pre
                  (subF (sortEntries cs) (depth + 1) (pre ++ "  ") (count + 1)).2).1),
         (listDirGo recursive maxDepth maxEntries subF rest depth pre
            (subF (sortEntries cs) (depth + 1) (pre ++ "  ") (count + 1)).2).2) := by
  subst hrec
  simp [listDirGo, h1, FsNode.name, h2, hg]

/-- Unfolding: reachable-entry count of a file entry. -/
theorem visitGo_file (recursive : Bool) (maxDepth : Nat)
    (subF : List FsNode → Nat → Nat) (n : String)
    (size : Nat) (rest : List FsNode) (depth : Nat) :
    visitGo recursive maxDepth subF (.file n size :: rest) depth
      = 1 + visitGo recursive maxDepth subF rest depth := by
  simp [visitGo]

/-- Unfolding: reachable-entry count of a directory entry whose children
are not reachable. -/
theorem visitGo_dir (recursive : Bool) (maxDepth : Nat)
    (subF : List FsNode → Nat → Nat) (n : String)
    (cs rest : List FsNode) (depth : Nat) :
    visitGo recursive maxDepth subF (.dir n cs :: rest) depth
      = 1 + (if (!isSkippedName n && recursive
                && decide (depth + 1 ≤ maxDepth)) = true then
               subF cs (depth + 1)
             else 0)
          + visitGo recursive maxDepth subF rest depth := by
  simp [visitGo]

theorem visitGo_dir_stop (recursive : Bool) (maxDepth : Nat)
    (subF : List FsNode → Nat → Nat) (n : String)
    (cs rest : List FsNode) (depth : Nat)
    (hstop : isSkippedName n = true ∨ recursive = false ∨ maxDepth < depth + 1) :
    visitGo recursive maxDepth subF (.dir n cs :: rest) depth
      = 1 + visitGo recursive maxDepth subF rest depth := by
  have hcond : ¬ ((!isSkippedName n && recursive
      && decide (depth + 1 ≤ maxDepth)) = true) := by
    rcases hstop with h | h | h
    · simp [h]
    · simp [h]
    · simp [Nat.not_le.mpr h]
  rw [visitGo_dir, if_neg hcond]

/-- Unfolding: reachable-entry count of a directory entry whose children
are reachable. -/
theorem visitGo_dir_go (recursive : Bool) (maxDepth : Nat)
    (subF : List FsNode → Nat → Nat) (n : String)
    (cs rest : List FsNode) (depth : Nat) (h2 : isSkippedName n = false)
    (hrec : recursive = true) (hd : depth + 1 ≤ maxDepth) :
    visitGo recursive maxDepth subF (.dir n cs :: rest) depth
      = 1 + subF cs (depth + 1)
          + visitGo recursive maxDepth subF rest depth := by
  have hcond : (!isSkippedName n && recursive && decide (depth + 1 ≤ maxDepth))
      = true := by simp [h2, hrec, hd]
  rw [visitGo_dir, if_pos hcond]

/-- One level of the traversal: the final shared counter is the cap
clamped to the starting counter plus the entries reachable at this
level, provided the subdirectory handler behaves likewise (relative to
an abstract reference count `visitSubF` for the subdirectories). -/
theorem listDirGo_count (recursive : Bool) (maxDepth maxEntries : Nat)
    (subF : List FsNode → Nat → String → Nat → List OutLine × Nat)
    (visitSubF : List FsNode → Nat → Nat)
    (depth : Nat)
    (hsub : depth + 1 ≤ maxDepth → ∀ (cs : List FsNode) (pre : String) (count : Nat),
      count ≤ maxEntries →
      (subF (sortEntries cs) (depth + 1) pre count).2
        = min maxEntries (count + visitSubF cs (depth + 1))) :
    ∀ (entries : List FsNode) (pre : String) (count : Nat), count ≤ maxEntries →
      (listDirGo recursive maxDepth maxEntries subF entries depth pre count).2
        = min maxEntries
            (count + visitGo recursive maxDepth visitSubF entries depth) := by
  intro entries
  induction entries with
  | nil =>
    intro pre count hc
    simp only [listDirGo, visitGo]
    omega
  | cons e rest ih =>
    intro pre count hc
    by_cases h1 : maxEntries ≤ count
    · rw [listDirGo_cap _ _ _ _ _ _ _ _ _ h1]
      omega
    · by_cases h2 : isSkippedName e.name = true
      · rw [listDirGo_skip _ _ _ _ _ _ _ _ _ h1 h2]
        rw [ih pre (count + 1) (by omega)]
        cases e with
        | file n size => rw [visitGo_file]; omega
        | dir n cs =>
          have h2n : isSkippedName n = true := by simpa [FsNode.name] using h2
          rw [visitGo_dir_stop _ _ _ _ _ _ _ (Or.inl h2n)]
          omega
      · have h2e := Bool.of_not_eq_true h2
        cases e with
        | file n size =>
          have h2n : isSkippedName n = false := by simpa [FsNode.name] using h2e
          rw [listDirGo_file _ _ _ _ _ _ _ _ _ _ h1 h2n]
          rw [ih pre (count + 1) (by omega)]
          rw [visitGo_file]
          omega
        | dir n cs =>
          have h2n : isSkippedName n = false := by simpa [FsNode.name] using h2e
          by_cases hrec : recursive = true
          · by_cases hg : maxDepth < depth + 1 ∨ maxEntries ≤ count + 1
            · rw [listDirGo_dir_nosub _ _ _ _ _ _ _ _ _ _ h1 h2n (Or.inr hg)]
              rw [ih pre (count + 1) (by omega)]
              rcases hg with hga | hgb
              · rw [visitGo_dir_stop _ _ _ _ _ _ _ (Or.inr (Or.inr hga))]
                omega
              · rw [visitGo_dir]
                omega
            · rw [listDirGo_dir_sub _ _ _ _ _ _ _ _ _ _ h1 h2n hrec hg]
              rw [hsub (by omega) cs (pre ++ "  ") (count + 1) (by omega)]
              rw [ih pre _ (by omega)]
              rw [visitGo_dir_go _ _ _ _ _ _ _ h2n hrec (by omega)]
              omega
          · have hrecf : recursive = false := by cases recursive <;> simp_all
            rw [listDirGo_dir_nosub _ _ _ _ _ _ _ _ _ _ h1 h2n (Or.inl hrecf)]
            rw [ih pre (count + 1) (by omega)]
            rw [visitGo_dir_stop _ _ _ _ _ _ _ (Or.inr (Or.inl hrecf))]
            omega

/-- The final shared counter of the traversal equals the cap clamped to
the starting counter plus the reachable entries, for any fuel covering
the remaining depth budget. -/
theorem listEntries_count (recursive : Bool) (maxDepth maxEntries : Nat) :
    ∀ (fuel : Nat) (entries : List FsNode) (depth : Nat) (pre : String)
      (count : Nat), count ≤ maxEntries → maxDepth ≤ depth + fuel →
      (listEntries recursive maxDepth maxEntries fuel entries depth pre count).2
        = min maxEntries
            (count
              + visitCountList recursive maxDepth fuel entries depth) := by
  intro fuel
  induction fuel with
  | zero =>
    intro entries depth pre count hc hd
    exact listDirGo_count recursive maxDepth maxEntries _ _ depth
      (fun hdep => absurd hdep (by omega)) entries pre count hc
  | succ f ihf =>
    intro entries depth pre count hc hd
    refine listDirGo_count recursive maxDepth maxEntries _ _ depth
      ?_ entries pre count hc
    intro hdep cs pre2 count2 hc2
    rw [ihf (sortEntries cs) (depth + 1) pre2 count2 hc2 (by omega)]
    rw [visitCountList_sortEntries]

/-- Counting listed entries: an entry line adds one. -/
theorem countP_entry_cons (s : String) (l : List OutLine) :
    (OutLine.entry s :: l).countP (fun x => !x.isNotice)
      = l.countP (fun x => !x.isNotice) + 1 := by
  simp [List.countP_cons, OutLine.isNotice]

/-- Counting listed entries: a notice line adds nothing. -/
theorem countP_notice_cons (s : String) (l : List OutLine) :
    (OutLine.notice s :: l).countP (fun x => !x.isNotice)
      = l.countP (fun x => !x.isNotice) := by
  simp [List.countP_cons, OutLine.isNotice]

/-- One level of the traversal: the number of listed-entry lines (every
line except the cap notice) accounts exactly for the counter increase,
provided the subdirectory handler behaves likewise. -/
theorem listDirGo_entryCount (recursive : Bool) (maxDepth maxEntries : Nat)
    (subF : List FsNode → Nat → String → Nat → List OutLine × Nat)
    (depth : Nat)
    (hsub : ∀ (cs : List FsNode) (pre : String) (count : Nat),
      ((subF (sortEntries cs) (depth + 1) pre count).1.countP
        (fun l => !l.isNotice)) + count
        = (subF (sortEntries cs) (depth + 1) pre count).2) :
    ∀ (entries : List FsNode) (pre : String) (count : Nat),
      ((listDirGo recursive maxDepth maxEntries subF entries depth pre count).1.countP
        (fun l => !l.isNotice)) + count
        = (listDirGo recursive maxDepth maxEntries subF entries depth pre count).2 := by
  intro entries
  induction entries with
  | nil =>
    intro pre count
    simp [listDirGo]
  | cons e rest ih =>
    intro pre count
    by_cases h1 : maxEntries ≤ count
    · rw [listDirGo_cap _ _ _ _ _ _ _ _ _ h1]
      simp [countP_notice_cons]
    · by_cases h2 : isSkippedName e.name = true
      · rw [listDirGo_skip _ _ _ _ _ _ _ _ _ h1 h2]
        have hi := ih pre (count + 1)
        rw [countP_entry_cons]
        omega
      · have h2e := Bool.of_not_eq_true h2
        cases e with
        | file n size =>
          have h2n : isSkippedName n = false := by simpa [FsNode.name] using h2e
          rw [listDirGo_file _ _ _ _ _ _ _ _ _ _ h1 h2n]
          have hi := ih pre (count + 1)
          rw [countP_entry_cons]
          omega
        | dir n cs =>
          have h2n : isSkippedName n = false := by simpa [FsNode.name] using h2e
          by_cases hsubq : recursive = true
            ∧ ¬ (maxDepth < depth + 1 ∨ maxEntries ≤ count + 1)
          · rw [listDirGo_dir_sub _ _ _ _ _ _ _ _ _ _ h1 h2n hsubq.1 hsubq.2]
            have hS := hsub cs (pre ++ "  ") (count + 1)
            have hR := ih pre
              (subF (sortEntries cs) (depth + 1) (pre ++ "  ") (count + 1)).2
            rw [countP_entry_cons, List.countP_append]
            omega
          · have hstop : recursive = false
                ∨ maxDepth < depth + 1 ∨ maxEntries ≤ count + 1 := by
              by_cases hrec : recursive = true
              · right
                by_contra hno
                exact hsubq ⟨hrec, hno⟩
              · left
                cases recursive
                · rfl
                · exact absurd rfl hrec
            rw [listDirGo_dir_nosub _ _ _ _ _ _ _ _ _ _ h1 h2n hstop]
            have hi := ih pre (count + 1)
            rw [countP_entry_cons]
            omega

/-- Listed-entry lines account exactly for the counter increase. -/
theorem listEntries_entryCount (recursive : Bool) (maxDepth maxEntries : Nat) :
    ∀ (fuel : Nat) (entries : List FsNode) (depth : Nat) (pre : String)
      (count : Nat),
      ((listEntries recursive maxDepth maxEntries fuel entries depth pre
          count).1.countP (fun l => !l.isNotice)) + count
        = (listEntries recursive maxDepth maxEntries fuel entries depth pre
            count).2 := by
  intro fuel
  induction fuel with
  | zero =>
    intro entries depth pre count
    exact listDirGo_entryCount recursive maxDepth maxEntries _ depth
      (fun cs pre2 count2 => by simp) entries pre count
  | succ f ihf =>
    intro entries depth pre count
    exact listDirGo_entryCount recursive maxDepth maxEntries _ depth
      (fun cs pre2 count2 => ihf (sortEntries cs) (depth + 1) pre2 count2)
      entries pre count

/-- The failing tree for the cap claim: 206 entries in total, but all
except five sit deeper than the traversal's depth bound. -/
def deepTree : List FsNode :=
  [.file "a" 1,
   .dir "d1" [.dir "d2" [.dir "d3"
     [.dir "d4" ((List.range 201).map (fun i => .file (toString i) 1))]]]]

set_option maxRecDepth 8000 in
/-- C7 counterexample: `deepTree` holds more than 200 entries in total,
yet the recursive traversal lists 4 entries and emits no capped-notice
line at all (the 201 files sit below the depth bound of 3) — not 200
entries plus exactly one notice as claimed. -/
theorem listDirectory_cap_claim_cex :
    totalCountList 9 deepTree = 206
    ∧ 200 < totalCountList 9 deepTree
    ∧ ((listDirectoryImpl true deepTree).1.countP (fun l => !l.isNotice)) = 4
    ∧ ((listDirectoryImpl true deepTree).1.countP OutLine.isNotice) = 0 :=
  ⟨by decide, by decide, by decide, by decide⟩

/-- C7 amended: for every tree with more than 200 entries reachable
within the depth bound, the recursive traversal lists exactly 200
entries (the capped-notice line may appear zero, one, or several times,
one per traversal level that still has entries pending when the cap is
hit); and every entry whose name is on the deny-list produces exactly
one line at its call-site, marked `[skipped]`, with no descent into it. -/
theorem listDirectory_cap_and_denylist :
    (∀ root : List FsNode, 200 < visitCountList true 3 4 root 1 →
      ((listDirectoryImpl true root).1.countP (fun l => !l.isNotice)) = 200)
    ∧ (∀ (fuel : Nat) (e : FsNode) (rest : List FsNode) (depth : Nat)
        (pre : String) (count : Nat),
        isSkippedName e.name = true → count < 200 →
        listEntries true 3 200 fuel (e :: rest) depth pre count
          = (.entry (pre ++ e.name ++ "/ [skipped]") ::
              (listEntries true 3 200 fuel rest depth pre (count + 1)).1,
             (listEntries true 3 200 fuel rest depth pre (count + 1)).2)) := by
  constructor
  · intro root hroot
    have hA := listEntries_count true 3 200 4 (sortEntries root) 1 "" 0
      (by omega) (by omega)
    have hB := listEntries_entryCount true 3 200 4 (sortEntries root) 1 "" 0
    rw [visitCountList_sortEntries] at hA
    show (listEntries true 3 200 4 (sortEntries root) 1 "" 0).1.countP
      (fun l => !l.isNotice) = 200
    omega
  · intro fuel e rest depth pre count hskip hcount
    cases fuel with
    | zero => exact listDirGo_skip _ _ _ _ _ _ _ _ _ (by omega) hskip
    | succ f => exact listDirGo_skip _ _ _ _ _ _ _ _ _ (by omega) hskip

/-- A flat tree of 201 files: more than the cap, all reachable. -/
def bigFlat : List FsNode := List.replicate 201 (.file "f" 1)

set_option maxRecDepth 8000 in
theorem listDirectory_cap_and_denylist_witness :
    (200 < visitCountList true 3 4 bigFlat 1
      ∧ ((listDirectoryImpl true bigFlat).1.countP (fun l => !l.isNotice)) = 200)
    ∧ (isSkippedName (FsNode.dir "node_modules" []).name = true
      ∧ (0 : Nat) < 200
      ∧ listEntries true 3 200 4 [FsNode.dir "node_modules" []] 1 "" 0
          = (.entry ("" ++ (FsNode.dir "node_modules" []).name ++ "/ [skipped]") ::
              (listEntries true 3 200 4 [] 1 "" 1).1,
             (listEntries true 3 200 4 [] 1 "" 1).2)) :=
  ⟨⟨by decide, listDirectory_cap_and_denylist.1 bigFlat (by decide)⟩,
   ⟨by decide, by decide,
    listDirectory_cap_and_denylist.2 4 (FsNode.dir "node_modules" []) [] 1 "" 0
      (by decide) (by decide)⟩⟩

/-! ## Lemmas about the `search_files` cap -/

theorem searchFileGo_match (pat relPath : String) (i : Nat) (line : String)
    (rest : List (Nat × String)) (acc : List String)
    (hm : jsIncludes line pat = true) :
    searchFileGo pat relPath ((i, line) :: rest) acc
      = (if 30 ≤ (acc ++ [mkMatch relPath i line]).length then
           acc ++ [mkMatch relPath i line]
         else searchFileGo pat relPath rest (acc ++ [mkMatch relPath i line])) := by
  simp [searchFileGo, hm]

theorem searchFileGo_nomatch (pat relPath : String) (i : Nat) (line : String)
    (rest : List (Nat × String)) (acc : List String)
    (hm : jsIncludes line pat = false) :
    searchFileGo pat relPath ((i, line) :: rest) acc
      = searchFileGo pat relPath rest acc := by
  simp [searchFileGo, hm]

/-- `searchInFile` records, in order, the uncapped matches truncated to
the space left under the 30-result cap. -/
theorem searchFileGo_spec (pat relPath : String) :
    ∀ (ls : List (Nat × String)) (acc : List String), acc.length < 30 →
      searchFileGo pat relPath ls acc
        = acc ++ ((ls.filterMap (fun p =>
            if jsIncludes p.2 pat then some (mkMatch relPath p.1 p.2)
            else none)).take (30 - acc.length)) := by
  intro ls
  induction ls with
  | nil => intro acc h; simp [searchFileGo]
  | cons p rest ih =>
    intro acc hlen
    obtain ⟨i, line⟩ := p
    by_cases hm : jsIncludes line pat = true
    · by_cases hfull : 30 ≤ (acc ++ [mkMatch relPath i line]).length
      · rw [searchFileGo_match _ _ _ _ _ _ hm, if_pos hfull]
        have h1 : (acc ++ [mkMatch relPath i line]).length = acc.length + 1 := by
          simp
        have h29 : 30 - acc.length = 1 := by omega
        simp [List.filterMap_cons, hm, h29]
      · rw [searchFileGo_match _ _ _ _ _ _ hm, if_neg hfull]
        have h1 : (acc ++ [mkMatch relPath i line]).length = acc.length + 1 := by
          simp
        have hlt : (acc ++ [mkMatch relPath i line]).length < 30 := by omega
        have hpos : 30 - acc.length = (30 - (acc.length + 1)) + 1 := by omega
        rw [ih _ hlt, h1, hpos]
        simp [List.filterMap_cons, hm, List.take_succ_cons, List.append_assoc]
    · have hm' : jsIncludes line pat = false := Bool.of_not_eq_true hm
      rw [searchFileGo_nomatch _ _ _ _ _ _ hm']
      rw [ih _ hlen]
      simp [List.filterMap_cons, hm']

theorem searchFile_spec (pat relPath content : String) (acc : List String)
    (h : acc.length < 30) :
    searchFileGo pat relPath ((content.splitOn "\n").enum) acc
      = acc ++ ((fileMatches pat relPath content).take (30 - acc.length)) := by
  rw [searchFileGo_spec pat relPath _ acc h]
  rfl

theorem searchGo_cap (pat : String) (fp : Option String)
    (subF : List SNode → Nat → String → List String → List String)
    (e : SNode) (rest : List SNode) (depth : Nat) (rel : String)
    (acc : List String) (hcap : 30 ≤ acc.length) :
    searchGo pat fp subF (e :: rest) depth rel acc = acc := by
  simp [searchGo, hcap]

theorem searchGo_skip_head (pat : String) (fp : Option String)
    (subF : List SNode → Nat → String → List String → List String)
    (e : SNode) (rest : List SNode) (depth : Nat) (rel : String)
    (acc : List String) (hcap : ¬ 30 ≤ acc.length)
    (hskip : SEARCH_SKIP.contains e.name = true) :
    searchGo pat fp subF (e :: rest) depth rel acc
      = searchGo pat fp subF rest depth rel acc := by
  simp only [searchGo]
  rw [if_neg hcap, if_pos hskip]

theorem searchGo_dir (pat : String) (fp : Option String)
    (subF : List SNode → Nat → String → List String → List String)
    (n : String) (cs rest : List SNode) (depth : Nat) (rel : String)
    (acc : List String) (hcap : ¬ 30 ≤ acc.length)
    (hskip : SEARCH_SKIP.contains n = false) :
    searchGo pat fp subF (.dir n cs :: rest) depth rel acc
      = searchGo pat fp subF rest depth rel
          (if 5 < depth + 1 ∨ 30 ≤ acc.length then acc
           else subF cs (depth + 1) (childRel rel n) acc) := by
  simp only [searchGo, SNode.name]
  rw [if_neg hcap, if_neg (by simpa using hskip)]

theorem searchGo_file (pat : String) (fp : Option String)
    (subF : List SNode → Nat → String → List String → List String)
    (n content : String) (rest : List SNode) (depth : Nat) (rel : String)
    (acc : List String) (hcap : ¬ 30 ≤ acc.length)
    (hskip : SEARCH_SKIP.contains n = false) :
    searchGo pat fp subF (.file n content :: rest) depth rel acc
      = searchGo pat fp subF rest depth rel
          (if filePatternSkips fp n then acc
           else searchFileGo pat (childRel rel n) ((content.splitOn "\n").enum) acc) := by
  simp only [searchGo, SNode.name]
  rw [if_neg hcap, if_neg (by simpa using hskip)]

theorem allGo_skip (pat : String) (fp : Option String)
    (subF : List SNode → Nat → String → List String)
    (e : SNode) (rest : List SNode) (depth : Nat) (rel : String)
    (hskip : SEARCH_SKIP.contains e.name = true) :
    allGo pat fp subF (e :: rest) depth rel
      = allGo pat fp subF rest depth rel := by
  simp only [allGo]
  rw [if_pos hskip]

theorem allGo_dir (pat : String) (fp : Option String)
    (subF : List SNode → Nat → String → List String)
    (n : String) (cs rest : List SNode) (depth : Nat) (rel : String)
    (hskip : SEARCH_SKIP.contains n = false) :
    allGo pat fp subF (.dir n cs :: rest) depth rel
      = (if 5 < depth + 1 then [] else subF cs (depth + 1) (childRel rel n))
          ++ allGo pat fp subF rest depth rel := by
  simp only [allGo, SNode.name]
  rw [if_neg (by simpa using hskip)]

theorem allGo_file (pat : String) (fp : Option String)
    (subF : List SNode → Nat → String → List String)
    (n content : String) (rest : List SNode) (depth : Nat) (rel : String)
    (hskip : SEARCH_SKIP.contains n = false) :
    allGo pat fp subF (.file n content :: rest) depth rel
      = (if filePatternSkips fp n then []
         else fileMatches pat (childRel rel n) content)
          ++ allGo pat fp subF rest depth rel := by
  simp only [allGo, SNode.name]
  rw [if_neg (by simpa using hskip)]

/-- One level of the walk: the capped results are the uncapped matches
truncated to the space left under the cap, provided the subdirectory
handler behaves likewise. -/
theorem searchGo_spec (pat : String) (fp : Option String)
    (subF : List SNode → Nat → String → List String → List String)
    (allSubF : List SNode → Nat → String → List String)
    (depth : Nat)
    (hsub : ∀ (cs : List SNode) (rel : String) (acc : List String),
      acc.length < 30 →
      subF cs (depth + 1) rel acc
        = acc ++ ((allSubF cs (depth + 1) rel).take (30 - acc.length))) :
    ∀ (entries : List SNode) (rel : String) (acc : List String),
      acc.length ≤ 30 →
      searchGo pat fp subF entries depth rel acc
        = acc ++ ((allGo pat fp allSubF entries depth rel).take
            (30 - acc.length)) := by
  intro entries
  induction entries with
  | nil => intro rel acc h; simp [searchGo, allGo]
  | cons e rest ih =>
    intro rel acc hacc
    by_cases hcap : 30 ≤ acc.length
    · rw [searchGo_cap _ _ _ _ _ _ _ _ hcap]
      have h0 : 30 - acc.length = 0 := by omega
      simp [h0]
    · by_cases hskip : SEARCH_SKIP.contains e.name = true
      · rw [searchGo_skip_head _ _ _ _ _ _ _ _ hcap hskip,
          allGo_skip _ _ _ _ _ _ _ hskip]
        exact ih rel acc hacc
      · have hsn : SEARCH_SKIP.contains e.name = false :=
          Bool.of_not_eq_true hskip
        cases e with
        | dir n cs =>
          have hn : SEARCH_SKIP.contains n = false := by
            simpa [SNode.name] using hsn
          rw [searchGo_dir _ _ _ _ _ _ _ _ _ hcap hn,
            allGo_dir _ _ _ _ _ _ _ _ hn]
          by_cases hd : 5 < depth + 1
          · rw [if_pos (Or.inl hd), if_pos hd]
            rw [ih rel acc hacc]
            simp
          · have hcond : ¬ (5 < depth + 1 ∨ 30 ≤ acc.length) := by
              rintro (h | h)
              · exact hd h
              · exact hcap h
            rw [if_neg hcond, if_neg hd]
            rw [hsub cs (childRel rel n) acc (by omega)]
            have hlen : (acc ++ ((allSubF cs (depth + 1)
                (childRel rel n)).take (30 - acc.length))).length ≤ 30 := by
              simp [List.length_take]
              omega
            rw [ih rel _ hlen]
            rw [List.take_append_eq_append_take, ← List.append_assoc]
            congr 2
            simp [List.length_take]
            omega
        | file n content =>
          have hn : SEARCH_SKIP.contains n = false := by
            simpa [SNode.name] using hsn
          rw [searchGo_file _ _ _ _ _ _ _ _ _ hcap hn,
            allGo_file _ _ _ _ _ _ _ _ hn]
          by_cases hf : filePatternSkips fp n = true
          · rw [if_pos hf, if_pos hf]
            rw [ih rel acc hacc]
            simp
          · rw [if_neg hf, if_neg hf]
            rw [searchFile_spec pat (childRel rel n) content acc (by omega)]
            have hlen : (acc ++ ((fileMatches pat (childRel rel n)
                content).take (30 - acc.length))).length ≤ 30 := by
              simp [List.length_take]
              omega
            rw [ih rel _ hlen]
            rw [List.take_append_eq_append_take, ← List.append_assoc]
            congr 2
            simp [List.length_take]
            omega

/-- The capped walk records the uncapped matches truncated to the
space left under the 30-result cap. -/
theorem searchWalk_spec (pat : String) (fp : Option String) :
    ∀ (fuel : Nat) (entries : List SNode) (depth : Nat) (rel : String)
      (acc : List String), acc.length ≤ 30 →
      searchWalk pat fp fuel entries depth rel acc
        = acc ++ ((allMatches pat fp fuel entries depth rel).take
            (30 - acc.length)) := by
  intro fuel
  induction fuel with
  | zero =>
    intro entries depth rel acc h
    exact searchGo_spec pat fp _ _ depth
      (fun cs rel2 acc2 h2 => by simp) entries rel acc h
  | succ f ih =>
    intro entries depth rel acc h
    exact searchGo_spec pat fp _ _ depth
      (fun cs rel2 acc2 h2 => ih cs (depth + 1) rel2 acc2 (by omega))
      entries rel acc h

/-- C8: `search_files` records exactly the first 30 matches the uncapped
scan would find (so it stops at the 30th match and never records more);
when the cap is reached the capped-notice line is appended; a scan with
zero matches returns exactly the sentinel `No matches found.`. -/
theorem searchFiles_cap_and_sentinel (pat : String) (fp : Option String)
    (root : List SNode) :
    (searchWalk pat fp 6 root 0 "" []).length ≤ 30
    ∧ searchWalk pat fp 6 root 0 "" []
        = (allMatches pat fp 6 root 0 "").take 30
    ∧ searchFilesImpl pat fp root
        = (if allMatches pat fp 6 root 0 "" = [] then "No matches found."
           else
             String.intercalate "\n" ((allMatches pat fp 6 root 0 "").take 30)
               ++ (if 30 ≤ (allMatches pat fp 6 root 0 "").length then
                     "\n... (capped at 30 results)"
                   else "")) := by
  have hw := searchWalk_spec pat fp 6 root 0 "" [] (by simp)
  simp only [List.nil_append, List.length_nil, Nat.sub_zero] at hw
  refine ⟨?_, hw, ?_⟩
  · rw [hw]
    exact List.length_take_le 30 _
  · unfold searchFilesImpl
    rw [hw]
    by_cases hnil : allMatches pat fp 6 root 0 "" = []
    · simp [hnil]
    · have hpos : 0 < (allMatches pat fp 6 root 0 "").length :=
        List.length_pos.mpr hnil
      have htake : 0 < ((allMatches pat fp 6 root 0 "").take 30).length := by
        simp [List.length_take]
        omega
      rw [if_pos htake, if_neg hnil]
      have hiff : (30 ≤ ((allMatches pat fp 6 root 0 "").take 30).length)
          ↔ (30 ≤ (allMatches pat fp 6 root 0 "").length) := by
        simp [List.length_take]
      by_cases hcap : 30 ≤ (allMatches pat fp 6 root 0 "").length
      · rw [if_pos (hiff.mpr hcap), if_pos hcap]
      · rw [if_neg (fun h => hcap (hiff.mp h)), if_neg hcap]

end PuterAgent
